import Mathlib

/-!
Verification of the frequency-plot module (`freqplot.py`): the default
frequency-range selector used by `bode`, the Bode renderer's unit
conversions and frequency threading, the Nyquist curve construction, and
the Gang-of-Four sensitivity layout.

Systems are modelled as records carrying pole/zero locations together with
a frequency-response oracle `freqresp : omega -> (mag, phase, omega)`,
matching the duck-typed interface the module consumes.  Real and complex
arithmetic is modelled over `ℝ` and `ℂ`.
-/

open Real

noncomputable section

/-- A linear system as `freqplot.py` sees it: pole and zero locations plus
the `sys.freqresp(omega) -> (mag, phase, omega)` operation. -/
structure LinSys where
  poles : List ℂ
  zeros : List ℂ
  freqresp : List ℝ → List ℝ × List ℝ × List ℝ

/-- `sp.logspace(a, b)`: 50 logarithmically spaced samples from `10^a` to
`10^b` inclusive (numpy default count 50). -/
def logspace (a b : ℝ) : List ℝ :=
  (List.range 50).map (fun i : ℕ => (10 : ℝ) ^ (a + (i : ℝ) * (b - a) / 49))

/-- The pooled pole/zero magnitudes gathered by the default-range code in
`bode` (lines 95-99): per system, `|poles|` then `|zeros|`, concatenated in
list order. -/
def featureMags (syslist : List LinSys) : List ℝ :=
  syslist.flatMap (fun sys => sys.poles.map Complex.abs ++ sys.zeros.map Complex.abs)

open Classical in
/-- `features = features[features != 0]` (line 102): drop features at the
origin. -/
def removeZeros : List ℝ → List ℝ
  | [] => []
  | x :: xs => if x = 0 then removeZeros xs else x :: removeZeros xs

/-- `if (features.shape[0] == 0): features = [1]` (line 105). -/
def fallbackOne (l : List ℝ) : List ℝ :=
  match l with
  | [] => [1]
  | _ => l

/-- `np.min` over a nonempty list (0 as junk value on `[]`, never used). -/
def listMin : List ℝ → ℝ
  | [] => 0
  | x :: xs => xs.foldl min x

/-- `np.max` over a nonempty list (0 as junk value on `[]`, never used). -/
def listMax : List ℝ → ℝ
  | [] => 0
  | x :: xs => xs.foldl max x

/-- `features = np.log10(features)` (line 108), applied to the filtered,
fallback-adjusted feature list. -/
def logFeatures (syslist : List LinSys) : List ℝ :=
  (fallbackOne (removeZeros (featureMags syslist))).map (Real.logb 10)

/-- The exponent bounds of `bode`'s default sweep (lines 107-112):
`floor(min(log10 features)) - 1` and `ceil(max(log10 features)) + 1`. -/
def defaultExponents (syslist : List LinSys) : ℤ × ℤ :=
  (⌊listMin (logFeatures syslist)⌋ - 1, ⌈listMax (logFeatures syslist)⌉ + 1)

/-- The default sweep `bode` derives when `omega` is absent:
`sp.logspace(floor(min(features))-1, ceil(max(features))+1)`. -/
def defaultOmega (syslist : List LinSys) : List ℝ :=
  logspace ((defaultExponents syslist).1 : ℝ) ((defaultExponents syslist).2 : ℝ)

/-- `omega = omega/(2*sp.pi)` (line 117), applied elementwise. -/
def hzScale (w : ℝ) : ℝ := w / (2 * Real.pi)

/-- `mag = 20*sp.log10(mag)` (line 118), applied elementwise. -/
def dBmag (m : ℝ) : ℝ := 20 * Real.logb 10 m

/-- The per-system loop of `bode` (lines 114-152), keeping the data the
properties below concern: the first component collects the `omega` argument
passed to each system's `freqresp` (note the loop variable `omega` is
reassigned from `freqresp`'s result and then Hz-rescaled in place, so it
carries over to the next iteration); the second collects the
`(omega, mag)` data plotted in the magnitude subplot.  The phase pipeline
(line 119) calls `ctrlutil.unwrap`, which is external to this module, and
none of the verified properties concern the phase curve, so it is not
recorded. -/
def bodeRun : List LinSys → List ℝ → Bool → Bool → List (List ℝ) × List (List ℝ × List ℝ)
  | [], _, _, _ => ([], [])
  | sys :: rest, omega, dB, Hz =>
      let r := sys.freqresp omega
      let omegaDisp := if Hz then r.2.2.map hzScale else r.2.2
      let magDisp := if dB then r.1.map dBmag else r.1
      let tail := bodeRun rest omegaDisp dB Hz
      (omega :: tail.1, (omegaDisp, magDisp) :: tail.2)

/-- `bode(syslist, omega, dB, Hz)`: selects the default sweep when `omega`
is absent, runs the per-system loop, and returns the fixed subplot codes
`(211, 212)` (line 154). -/
def bode (syslist : List LinSys) (omegaIn : Option (List ℝ)) (dB Hz : Bool) :
    (List (List ℝ) × List (List ℝ × List ℝ)) × ℕ × ℕ :=
  let omega := match omegaIn with
    | none => defaultOmega syslist
    | some l => l
  (bodeRun syslist omega dB Hz, (211, 212))

/-- The sweep `nyquist` uses (lines 180-181): the caller's `omega` if
present, else the fixed `sp.logspace(-2, 2)`. -/
def nyquistOmega (omegaIn : Option (List ℝ)) : List ℝ :=
  match omegaIn with
  | none => logspace (-2) 2
  | some l => l

/-- What `nyquist` draws: the sweep it used, the primary curve, the mirror
curve, and the critical-point marker. -/
structure NyquistOut where
  omegaUsed : List ℝ
  primary : List (ℝ × ℝ)
  mirror : List (ℝ × ℝ)
  marker : ℝ × ℝ

/-- `nyquist(sys, omega)` (lines 157-195): `x = mag*cos(phase)`,
`y = mag*sin(phase)`, primary curve `(x, y)`, mirror `(x, -y)`, and the
`-1` marker at `(-1, 0)`. -/
def nyquist (sys : LinSys) (omegaIn : Option (List ℝ)) : NyquistOut :=
  let omega := nyquistOmega omegaIn
  let r := sys.freqresp omega
  let x := List.zipWith (fun m p => m * Real.cos p) r.1 r.2.1
  let y := List.zipWith (fun m p => m * Real.sin p) r.1 r.2.1
  ⟨omega, x.zip y, x.zip (y.map (fun v => -v)), (-1, 0)⟩

/-- The sweep `gangof4` uses (lines 222-223): the caller's `omega` if
present, else the fixed `sp.logspace(-2, 2)`. -/
def gangof4Omega (omegaIn : Option (List ℝ)) : List ℝ :=
  match omegaIn with
  | none => logspace (-2) 2
  | some l => l

/-- Series composition `P*C` on transfer functions, modelled pointwise in
the frequency domain. -/
def tfMul (P C : ℝ → ℂ) : ℝ → ℂ := fun w => P w * C w

/-- The constant unity system, the `1` in `feedback(1, L)`. -/
def tfOne : ℝ → ℂ := fun _ => 1

/-- Modelled from the spec: `feedback` is imported from `bdalg`, outside
this module's source.  Spec 4.4 describes `S = feedback(1, L)` as closing a
unity positive feedback loop around `L`: forward gain `g` with the loop
signal fed back positively, giving `g / (1 - g*L)` pointwise. -/
def feedback (g l : ℝ → ℂ) : ℝ → ℂ := fun w => g w / (1 - g w * l w)

/-- `freqresp` of a transfer function: magnitude `|G(w)|`, phase
`arg G(w)`, and the sweep echoed back. -/
def tfFreqresp (G : ℝ → ℂ) (omega : List ℝ) : List ℝ × List ℝ × List ℝ :=
  (omega.map (fun w => Complex.abs (G w)), omega.map (fun w => (G w).arg), omega)

/-- One cell of the Gang-of-Four 2x2 grid: the `plt.subplot` code and the
`(omega, mag)` data plotted with `loglog`. -/
structure Cell where
  code : ℕ
  curve : List (ℝ × ℝ)

/-- The `(omega, mag)` data `plt.loglog(omega, mag)` receives for a
transfer function. -/
def magCurve (G : ℝ → ℂ) (omega : List ℝ) : List (ℝ × ℝ) :=
  (tfFreqresp G omega).2.2.zip (tfFreqresp G omega).1

/-- `gangof4(P, C, omega)` (lines 198-242): `L = P*C`, `S = feedback(1, L)`,
`T = L*S`; cells in row-major `subplot(22k)` order: 221 top-left `T`,
222 top-right `P*S`, 223 bottom-left `C*S`, 224 bottom-right `S`. -/
def gangof4 (P C : ℝ → ℂ) (omegaIn : Option (List ℝ)) : Cell × Cell × Cell × Cell :=
  let omega := gangof4Omega omegaIn
  let L := tfMul P C
  let S := feedback tfOne L
  let T := tfMul L S
  (⟨221, magCurve T omega⟩, ⟨222, magCurve (tfMul P S) omega⟩,
   ⟨223, magCurve (tfMul C S) omega⟩, ⟨224, magCurve S omega⟩)

/-- A frequency-response oracle that echoes the sweep in all three slots;
used for concrete instantiations. -/
def echoResp : List ℝ → List ℝ × List ℝ × List ℝ := fun omega => (omega, omega, omega)

/-- Concrete system with no poles or zeros and an echoing response. -/
def sysEcho : LinSys := ⟨[], [], echoResp⟩

/-- Concrete system with a single pole of magnitude 10. -/
def sysPole10 : LinSys := ⟨[10], [], echoResp⟩

/-- Concrete system with poles at -1 and -10 and no zeros. -/
def sysPoles1and10 : LinSys := ⟨[-1, -10], [], echoResp⟩

/-- Concrete system with one pole and one zero at the origin. -/
def sysAtOrigin : LinSys := ⟨[0], [0], echoResp⟩

/-- Concrete system with a single pole of magnitude 1000. -/
def sysPole1000 : LinSys := ⟨[1000], [], echoResp⟩

/-- Concrete system whose response has magnitude 1 and phase 0 everywhere. -/
def sysUnit : LinSys :=
  ⟨[], [], fun omega => (omega.map (fun _ => 1), omega.map (fun _ => 0), omega)⟩

/-! ### Helper lemmas -/

theorem logspace_head (a b : ℝ) : (logspace a b).head? = some ((10 : ℝ) ^ a) := by
  have h : List.range 50 = 0 :: (List.range 49).map Nat.succ := by
    rw [show (50 : ℕ) = 49 + 1 from rfl, List.range_succ_eq_map]
  rw [logspace, h, List.map_cons, List.head?_cons]
  norm_num

theorem logspace_getLast (a b : ℝ) : (logspace a b).getLast? = some ((10 : ℝ) ^ b) := by
  have h : List.range 50 = List.range 49 ++ [49] := by
    rw [show (50 : ℕ) = 49 + 1 from rfl, List.range_succ]
  have hb : a + (49 : ℝ) * (b - a) / 49 = b := by ring
  rw [logspace, h, List.map_append, List.map_cons, List.map_nil, List.getLast?_concat]
  congr 1
  rw [show (((49 : ℕ) : ℝ)) = (49 : ℝ) by norm_num, hb]

theorem foldl_min_le_init (l : List ℝ) : ∀ a : ℝ, l.foldl min a ≤ a := by
  induction l with
  | nil => intro a; simp
  | cons x xs ih =>
      intro a
      calc (x :: xs).foldl min a = xs.foldl min (min a x) := rfl
        _ ≤ min a x := ih _
        _ ≤ a := min_le_left _ _

theorem foldl_min_le_mem (l : List ℝ) : ∀ (a x : ℝ), x ∈ l → l.foldl min a ≤ x := by
  induction l with
  | nil => intro a x hx; cases hx
  | cons y ys ih =>
      intro a x hx
      rcases List.mem_cons.1 hx with rfl | hx
      · calc (x :: ys).foldl min a = ys.foldl min (min a x) := rfl
          _ ≤ min a x := foldl_min_le_init _ _
          _ ≤ x := min_le_right _ _
      · exact ih _ _ hx

theorem listMin_le (l : List ℝ) (x : ℝ) (hx : x ∈ l) : listMin l ≤ x := by
  cases l with
  | nil => cases hx
  | cons y ys =>
      rcases List.mem_cons.1 hx with rfl | hx
      · exact foldl_min_le_init ys x
      · exact foldl_min_le_mem ys y x hx

theorem init_le_foldl_max (l : List ℝ) : ∀ a : ℝ, a ≤ l.foldl max a := by
  induction l with
  | nil => intro a; simp
  | cons x xs ih =>
      intro a
      calc a ≤ max a x := le_max_left _ _
        _ ≤ xs.foldl max (max a x) := ih _
        _ = (x :: xs).foldl max a := rfl

theorem mem_le_foldl_max (l : List ℝ) : ∀ (a x : ℝ), x ∈ l → x ≤ l.foldl max a := by
  induction l with
  | nil => intro a x hx; cases hx
  | cons y ys ih =>
      intro a x hx
      rcases List.mem_cons.1 hx with rfl | hx
      · calc x ≤ max a x := le_max_right _ _
          _ ≤ ys.foldl max (max a x) := init_le_foldl_max _ _
          _ = (x :: ys).foldl max a := rfl
      · exact ih _ _ hx

theorem le_listMax (l : List ℝ) (x : ℝ) (hx : x ∈ l) : x ≤ listMax l := by
  cases l with
  | nil => cases hx
  | cons y ys =>
      rcases List.mem_cons.1 hx with rfl | hx
      · exact init_le_foldl_max ys x
      · exact mem_le_foldl_max ys y x hx

theorem mem_removeZeros (l : List ℝ) (x : ℝ) : x ∈ removeZeros l ↔ x ∈ l ∧ x ≠ 0 := by
  induction l with
  | nil => simp [removeZeros]
  | cons y ys ih =>
      simp only [removeZeros]
      by_cases hy : y = 0
      · rw [if_pos hy]
        subst hy
        rw [ih]
        constructor
        · rintro ⟨h1, h2⟩
          exact ⟨List.mem_cons_of_mem _ h1, h2⟩
        · rintro ⟨h1, h2⟩
          rcases List.mem_cons.1 h1 with rfl | h1
          · exact absurd rfl h2
          · exact ⟨h1, h2⟩
      · rw [if_neg hy]
        constructor
        · intro hmem
          rcases List.mem_cons.1 hmem with rfl | h1
          · exact ⟨List.mem_cons_self _ _, hy⟩
          · obtain ⟨h2, h3⟩ := ih.1 h1
            exact ⟨List.mem_cons_of_mem _ h2, h3⟩
        · rintro ⟨h1, h2⟩
          rcases List.mem_cons.1 h1 with rfl | h1
          · exact List.mem_cons_self _ _
          · exact List.mem_cons_of_mem _ (ih.2 ⟨h1, h2⟩)

theorem removeZeros_eq_nil (l : List ℝ) (h : ∀ x ∈ l, x = 0) : removeZeros l = [] := by
  induction l with
  | nil => rfl
  | cons y ys ih =>
      have hy : y = 0 := h y (List.mem_cons_self _ _)
      simp only [removeZeros, if_pos hy]
      exact ih (fun x hx => h x (List.mem_cons_of_mem _ hx))

theorem featureMags_nonneg (syslist : List LinSys) (m : ℝ)
    (hm : m ∈ featureMags syslist) : 0 ≤ m := by
  rw [featureMags, List.mem_flatMap] at hm
  obtain ⟨sys, _, hmem⟩ := hm
  rcases List.mem_append.1 hmem with h | h <;>
  · obtain ⟨z, _, rfl⟩ := List.mem_map.1 h
    exact Complex.abs.nonneg z

theorem fallbackOne_of_ne_nil (l : List ℝ) (h : l ≠ []) : fallbackOne l = l := by
  cases l with
  | nil => exact absurd rfl h
  | cons x xs => rfl

theorem fallbackOne_nil : fallbackOne ([] : List ℝ) = [1] := rfl

theorem logb_mem_logFeatures (syslist : List LinSys) (m : ℝ)
    (hm : m ∈ featureMags syslist) (h0 : m ≠ 0) :
    Real.logb 10 m ∈ logFeatures syslist := by
  have hmem0 : m ∈ removeZeros (featureMags syslist) := (mem_removeZeros _ _).2 ⟨hm, h0⟩
  have hne : removeZeros (featureMags syslist) ≠ [] := by
    intro h
    rw [h] at hmem0
    cases hmem0
  rw [logFeatures, fallbackOne_of_ne_nil _ hne]
  exact List.mem_map_of_mem _ hmem0

theorem defaultExponents_bracket (syslist : List LinSys) (m : ℝ)
    (hm : m ∈ featureMags syslist) (h0 : m ≠ 0) :
    (10 : ℝ) ^ (((defaultExponents syslist).1 : ℤ) : ℝ) ≤ m / 10 ∧
    m * 10 ≤ (10 : ℝ) ^ (((defaultExponents syslist).2 : ℤ) : ℝ) := by
  have hmpos : 0 < m := lt_of_le_of_ne (featureMags_nonneg _ _ hm) (Ne.symm h0)
  have hlmem : Real.logb 10 m ∈ logFeatures syslist := logb_mem_logFeatures _ _ hm h0
  have hmin : listMin (logFeatures syslist) ≤ Real.logb 10 m := listMin_le _ _ hlmem
  have hmax : Real.logb 10 m ≤ listMax (logFeatures syslist) := le_listMax _ _ hlmem
  constructor
  · have h1 : (((defaultExponents syslist).1 : ℤ) : ℝ) ≤ Real.logb 10 m - 1 := by
      rw [defaultExponents]
      push_cast
      have := Int.floor_le (listMin (logFeatures syslist))
      linarith
    calc (10 : ℝ) ^ (((defaultExponents syslist).1 : ℤ) : ℝ)
        ≤ (10 : ℝ) ^ (Real.logb 10 m - 1) :=
          Real.rpow_le_rpow_of_exponent_le (by norm_num) h1
      _ = m / 10 := by
          rw [Real.rpow_sub (by norm_num : (0 : ℝ) < 10),
            Real.rpow_logb (by norm_num) (by norm_num) hmpos, Real.rpow_one]
  · have h2 : Real.logb 10 m + 1 ≤ (((defaultExponents syslist).2 : ℤ) : ℝ) := by
      rw [defaultExponents]
      push_cast
      have := Int.le_ceil (listMax (logFeatures syslist))
      linarith
    calc m * 10 = (10 : ℝ) ^ (Real.logb 10 m + 1) := by
          rw [Real.rpow_add (by norm_num : (0 : ℝ) < 10),
            Real.rpow_logb (by norm_num) (by norm_num) hmpos, Real.rpow_one]
      _ ≤ (10 : ℝ) ^ (((defaultExponents syslist).2 : ℤ) : ℝ) :=
          Real.rpow_le_rpow_of_exponent_le (by norm_num) h2

theorem logb_ten_ten : Real.logb 10 10 = 1 :=
  Real.logb_self_eq_one (by norm_num)

theorem logb_ten_thousand : Real.logb 10 1000 = 3 := by
  have h : (1000 : ℝ) = (10 : ℝ) ^ (3 : ℝ) := by
    rw [show (3 : ℝ) = ((3 : ℕ) : ℝ) by norm_num, Real.rpow_natCast]
    norm_num
  rw [h, Real.logb_rpow (by norm_num) (by norm_num)]

theorem rpow_intCast_neg_one : (10 : ℝ) ^ (((-1 : ℤ) : ℤ) : ℝ) = 1 / 10 := by
  rw [Real.rpow_intCast]
  norm_num

theorem rpow_intCast_two : (10 : ℝ) ^ (((2 : ℤ) : ℤ) : ℝ) = 100 := by
  rw [Real.rpow_intCast]
  norm_num

theorem featureMags_sysPoles1and10 : featureMags [sysPoles1and10] = [1, 10] := by
  rw [featureMags, sysPoles1and10]
  simp [Complex.abs.map_neg, Complex.abs_ofNat]

theorem logFeatures_sysPoles1and10 : logFeatures [sysPoles1and10] = [0, 1] := by
  rw [logFeatures, featureMags_sysPoles1and10]
  have h2 : removeZeros [1, 10] = [1, 10] := by
    simp only [removeZeros]
    rw [if_neg (by norm_num), if_neg (by norm_num)]
  rw [h2, fallbackOne_of_ne_nil _ (by simp), List.map_cons, List.map_cons, List.map_nil,
    Real.logb_one, logb_ten_ten]

theorem defaultExponents_sysPoles1and10 : defaultExponents [sysPoles1and10] = (-1, 2) := by
  rw [defaultExponents, logFeatures_sysPoles1and10]
  have hmin : listMin [(0 : ℝ), 1] = 0 := by
    simp [listMin]
  have hmax : listMax [(0 : ℝ), 1] = 1 := by
    simp [listMax]
  rw [hmin, hmax]
  norm_num

theorem featureMags_sysPole1000 : featureMags [sysPole1000] = [1000] := by
  rw [featureMags, sysPole1000]
  simp [Complex.abs_ofNat]

theorem defaultExponents_sysPole1000 : defaultExponents [sysPole1000] = (2, 4) := by
  rw [defaultExponents]
  have h : logFeatures [sysPole1000] = [3] := by
    rw [logFeatures, featureMags_sysPole1000]
    have h2 : removeZeros [1000] = [1000] := by
      simp only [removeZeros]
      rw [if_neg (by norm_num)]
    rw [h2, fallbackOne_of_ne_nil _ (by simp), List.map_cons, List.map_nil, logb_ten_thousand]
  rw [h]
  have hmin : listMin [(3 : ℝ)] = 3 := by simp [listMin]
  have hmax : listMax [(3 : ℝ)] = 3 := by simp [listMax]
  rw [hmin, hmax, show ((3 : ℝ)) = ((3 : ℤ) : ℝ) by norm_num, Int.floor_intCast, Int.ceil_intCast]
  norm_num

/-! ### Claim theorems -/

/-- C1: for every collection of systems whose pooled pole/zero magnitudes
contain a non-zero value `m`, the default sweep `bode` derives when `omega`
is absent has its lower bound (first sample) at most `m/10` and its upper
bound (last sample) at least `m*10` — one decade of margin each side. -/
theorem bode_default_sweep_decade_margin (syslist : List LinSys) (m : ℝ)
    (hm : m ∈ featureMags syslist) (h0 : m ≠ 0) :
    ∃ lo hi : ℝ, (defaultOmega syslist).head? = some lo ∧
      (defaultOmega syslist).getLast? = some hi ∧ lo ≤ m / 10 ∧ m * 10 ≤ hi := by
  obtain ⟨h1, h2⟩ := defaultExponents_bracket syslist m hm h0
  exact ⟨_, _, logspace_head (((defaultExponents syslist).1 : ℤ) : ℝ)
      (((defaultExponents syslist).2 : ℤ) : ℝ),
    logspace_getLast (((defaultExponents syslist).1 : ℤ) : ℝ)
      (((defaultExponents syslist).2 : ℤ) : ℝ), h1, h2⟩

/-- Witness for C1 at the single-system collection with one pole of
magnitude 10. -/
theorem bode_default_sweep_decade_margin_witness :
    ((10 : ℝ) ∈ featureMags [sysPole10] ∧ (10 : ℝ) ≠ 0) ∧
    (∃ lo hi : ℝ, (defaultOmega [sysPole10]).head? = some lo ∧
      (defaultOmega [sysPole10]).getLast? = some hi ∧
      lo ≤ (10 : ℝ) / 10 ∧ (10 : ℝ) * 10 ≤ hi) := by
  have hmem : (10 : ℝ) ∈ featureMags [sysPole10] := by
    simp [featureMags, sysPole10]
  exact ⟨⟨hmem, by norm_num⟩,
    bode_default_sweep_decade_margin [sysPole10] 10 hmem (by norm_num)⟩

/-- C3 counterexample: for poles {-1, -10} and no zeros, the derived
sweep's lower bound is 0.1, not the 0.01 the claim states. -/
theorem bode_default_sweep_poles_1_10_counterexample :
    (defaultOmega [sysPoles1and10]).head? = some ((1 : ℝ) / 10) ∧
    ((1 : ℝ) / 10) ≠ ((1 : ℝ) / 100) := by
  constructor
  · have h : (defaultOmega [sysPoles1and10]).head? =
        some ((10 : ℝ) ^ (((defaultExponents [sysPoles1and10]).1 : ℤ) : ℝ)) :=
      logspace_head _ _
    rw [h, defaultExponents_sysPoles1and10]
    norm_num [Real.rpow_intCast]
  · norm_num

/-- C3 amended: for a single system with poles at {-1, -10} and no zeros,
the derived default sweep spans [0.1, 100] rad/s — one decade below the
smallest feature 1 and one decade above the largest feature 10, with the
log-space bounds rounded outward to the integers -1 and 2. -/
theorem bode_default_sweep_poles_1_10 :
    defaultExponents [sysPoles1and10] = (-1, 2) ∧
    (defaultOmega [sysPoles1and10]).head? = some ((1 : ℝ) / 10) ∧
    (defaultOmega [sysPoles1and10]).getLast? = some (100 : ℝ) := by
  refine ⟨defaultExponents_sysPoles1and10, ?_, ?_⟩
  · have h : (defaultOmega [sysPoles1and10]).head? =
        some ((10 : ℝ) ^ (((defaultExponents [sysPoles1and10]).1 : ℤ) : ℝ)) :=
      logspace_head _ _
    rw [h, defaultExponents_sysPoles1and10]
    norm_num [Real.rpow_intCast]
  · have h : (defaultOmega [sysPoles1and10]).getLast? =
        some ((10 : ℝ) ^ (((defaultExponents [sysPoles1and10]).2 : ℤ) : ℝ)) :=
      logspace_getLast _ _
    rw [h, defaultExponents_sysPoles1and10]
    norm_num [Real.rpow_intCast]

/-- C4: when every pooled pole/zero magnitude is zero (or there are none),
the default sweep equals the decade-bracket of the singleton feature set
{1}: `logspace(-1, 1)`, spanning [0.1, 10] rad/s. -/
theorem bode_default_sweep_fallback (syslist : List LinSys)
    (h : ∀ x ∈ featureMags syslist, x = 0) :
    defaultOmega syslist = logspace (-1) 1 ∧
    (defaultOmega syslist).head? = some ((1 : ℝ) / 10) ∧
    (defaultOmega syslist).getLast? = some (10 : ℝ) := by
  have h1 : removeZeros (featureMags syslist) = [] := removeZeros_eq_nil _ h
  have h2 : logFeatures syslist = [0] := by
    rw [logFeatures, h1, fallbackOne_nil, List.map_cons, List.map_nil, Real.logb_one]
  have h3 : defaultExponents syslist = (-1, 1) := by
    rw [defaultExponents, h2]
    have hmin : listMin [(0 : ℝ)] = 0 := by simp [listMin]
    have hmax : listMax [(0 : ℝ)] = 0 := by simp [listMax]
    rw [hmin, hmax]
    norm_num
  have h4 : defaultOmega syslist = logspace (-1) 1 := by
    unfold defaultOmega
    rw [h3]
    norm_num
  refine ⟨h4, ?_, ?_⟩
  · rw [h4, logspace_head]
    rw [show ((-1 : ℝ)) = (((-1 : ℤ)) : ℝ) by norm_num, Real.rpow_intCast]
    norm_num
  · rw [h4, logspace_getLast, Real.rpow_one]

/-- Witness for C4 at a system with one pole and one zero at the origin. -/
theorem bode_default_sweep_fallback_witness :
    (∀ x ∈ featureMags [sysAtOrigin], x = 0) ∧
    (defaultOmega [sysAtOrigin] = logspace (-1) 1 ∧
     (defaultOmega [sysAtOrigin]).head? = some ((1 : ℝ) / 10) ∧
     (defaultOmega [sysAtOrigin]).getLast? = some (10 : ℝ)) := by
  have h : ∀ x ∈ featureMags [sysAtOrigin], x = 0 := by
    intro x hx
    simp [featureMags, sysAtOrigin] at hx
    exact hx
  exact ⟨h, bode_default_sweep_fallback [sysAtOrigin] h⟩

/-- C2 counterexample: for a system with a pole of magnitude 1000, the
section-4.1 selector would give `logspace(2, 4)`, but `nyquist` and
`gangof4` use the fixed `logspace(-2, 2)` when `omega` is absent, so
neither derives its default sweep from the selector. -/
theorem nyquist_gangof4_fixed_default_counterexample :
    nyquistOmega none ≠ defaultOmega [sysPole1000] ∧
    gangof4Omega none ≠ defaultOmega [sysPole1000] := by
  have hd : (defaultOmega [sysPole1000]).head? = some (100 : ℝ) := by
    have h : (defaultOmega [sysPole1000]).head? =
        some ((10 : ℝ) ^ (((defaultExponents [sysPole1000]).1 : ℤ) : ℝ)) :=
      logspace_head _ _
    rw [h, defaultExponents_sysPole1000]
    norm_num [Real.rpow_intCast]
  constructor
  · intro h
    have hn : (nyquistOmega none).head? = some ((1 : ℝ) / 100) := by
      have h2 : (nyquistOmega none).head? = (logspace (-2) 2).head? := rfl
      rw [h2, logspace_head, show ((-2 : ℝ)) = (((-2 : ℤ)) : ℝ) by norm_num,
        Real.rpow_intCast]
      norm_num
    rw [h, hd] at hn
    norm_num at hn
  · intro h
    have hn : (gangof4Omega none).head? = some ((1 : ℝ) / 100) := by
      have h2 : (gangof4Omega none).head? = (logspace (-2) 2).head? := rfl
      rw [h2, logspace_head, show ((-2 : ℝ)) = (((-2 : ℤ)) : ℝ) by norm_num,
        Real.rpow_intCast]
      norm_num
    rw [h, hd] at hn
    norm_num at hn

/-- C2 amended: when `omega` is absent, `nyquist` and `gangof4` do not run
the section-4.1 selector; each falls back to the fixed logarithmic sweep
`logspace(-2, 2)`, independent of the systems' poles and zeros. -/
theorem nyquist_gangof4_fixed_default_sweep (sys : LinSys) (P C : ℝ → ℂ)
    (omegaIn : Option (List ℝ)) :
    (nyquist sys none).omegaUsed = logspace (-2) 2 ∧
    (nyquist sys omegaIn).omegaUsed = nyquistOmega omegaIn ∧
    ((gangof4 P C none).1.curve.map Prod.fst) = logspace (-2) 2 ∧
    gangof4Omega none = logspace (-2) 2 := by
  refine ⟨rfl, rfl, ?_, rfl⟩
  have hc : ∀ (G : ℝ → ℂ) (omega : List ℝ), (magCurve G omega).map Prod.fst = omega := by
    intro G omega
    rw [magCurve]
    apply List.map_fst_zip
    simp [tfFreqresp]
  exact hc _ _

/-- C5: `gangof4` composes `L = P*C`, `S = feedback(1, L)` (unity positive
feedback around `L`, i.e. `S = 1/(1 - L)` pointwise per the spec's model of
the external `feedback`), `T = L*S`, and plots magnitudes of `T` in cell
221 (top-left), `P*S` in 222 (top-right), `C*S` in 223 (bottom-left) and
`S` in 224 (bottom-right) of the 2x2 log-log grid. -/
theorem gangof4_layout_and_sensitivity (P C : ℝ → ℂ) (omegaIn : Option (List ℝ)) :
    (gangof4 P C omegaIn).1 =
      ⟨221, magCurve (tfMul (tfMul P C) (feedback tfOne (tfMul P C))) (gangof4Omega omegaIn)⟩ ∧
    (gangof4 P C omegaIn).2.1 =
      ⟨222, magCurve (tfMul P (feedback tfOne (tfMul P C))) (gangof4Omega omegaIn)⟩ ∧
    (gangof4 P C omegaIn).2.2.1 =
      ⟨223, magCurve (tfMul C (feedback tfOne (tfMul P C))) (gangof4Omega omegaIn)⟩ ∧
    (gangof4 P C omegaIn).2.2.2 =
      ⟨224, magCurve (feedback tfOne (tfMul P C)) (gangof4Omega omegaIn)⟩ ∧
    (∀ w : ℝ, feedback tfOne (tfMul P C) w = 1 / (1 - P w * C w)) := by
  refine ⟨rfl, rfl, rfl, rfl, fun w => ?_⟩
  simp [feedback, tfOne, tfMul]

/-- C6: every point of `nyquist`'s primary curve is
`(mag*cos(phase), mag*sin(phase))` at its sweep index, the mirror curve
holds the y-negated point at the same index, and the critical-point marker
sits at `(-1, 0)`. -/
theorem nyquist_mirror_reflection (sys : LinSys) (omegaIn : Option (List ℝ))
    (i : ℕ) (x0 y0 : ℝ)
    (h : (nyquist sys omegaIn).primary.get? i = some (x0, y0)) :
    (nyquist sys omegaIn).mirror.get? i = some (x0, -y0) ∧
    (nyquist sys omegaIn).marker = (-1, 0) ∧
    (∃ m p : ℝ, (sys.freqresp (nyquistOmega omegaIn)).1.get? i = some m ∧
      (sys.freqresp (nyquistOmega omegaIn)).2.1.get? i = some p ∧
      x0 = m * Real.cos p ∧ y0 = m * Real.sin p) := by
  set xl := List.zipWith (fun m p => m * Real.cos p)
    (sys.freqresp (nyquistOmega omegaIn)).1 (sys.freqresp (nyquistOmega omegaIn)).2.1 with hx
  set yl := List.zipWith (fun m p => m * Real.sin p)
    (sys.freqresp (nyquistOmega omegaIn)).1 (sys.freqresp (nyquistOmega omegaIn)).2.1 with hy
  have hprim : (nyquist sys omegaIn).primary = xl.zip yl := rfl
  have hmirr : (nyquist sys omegaIn).mirror = xl.zip (yl.map (fun v => -v)) := rfl
  rw [hprim, List.get?_zip_eq_some] at h
  obtain ⟨hxg, hyg⟩ := h
  refine ⟨?_, rfl, ?_⟩
  · rw [hmirr, List.get?_zip_eq_some]
    refine ⟨hxg, ?_⟩
    rw [List.get?_map, hyg]
    rfl
  · rw [hx, List.get?_zipWith_eq_some] at hxg
    rw [hy, List.get?_zipWith_eq_some] at hyg
    obtain ⟨m, p, hm, hp, hxe⟩ := hxg
    obtain ⟨m2, p2, hm2, hp2, hye⟩ := hyg
    have e1 : m = m2 := Option.some.inj (hm.symm.trans hm2)
    have e2 : p = p2 := Option.some.inj (hp.symm.trans hp2)
    refine ⟨m, p, hm, hp, hxe.symm, ?_⟩
    rw [e1, e2]
    exact hye.symm

/-- Witness for C6 at a unit-response system and the singleton sweep [1]. -/
theorem nyquist_mirror_reflection_witness :
    (nyquist sysUnit (some [1])).primary.get? 0 = some (1, 0) ∧
    ((nyquist sysUnit (some [1])).mirror.get? 0 = some (1, -0) ∧
     (nyquist sysUnit (some [1])).marker = (-1, 0) ∧
     (∃ m p : ℝ, (sysUnit.freqresp (nyquistOmega (some [1]))).1.get? 0 = some m ∧
       (sysUnit.freqresp (nyquistOmega (some [1]))).2.1.get? 0 = some p ∧
       (1 : ℝ) = m * Real.cos p ∧ (0 : ℝ) = m * Real.sin p)) := by
  have h : (nyquist sysUnit (some [1])).primary.get? 0 = some (1, 0) := by
    simp [nyquist, nyquistOmega, sysUnit]
  exact ⟨h, nyquist_mirror_reflection sysUnit (some [1]) 0 1 0 h⟩

/-- C7: with the dB flag set, `bode`'s magnitude conversion is
`20*log10(mag)`, strictly monotonic on positive magnitudes, and maps
0.1, 1, 10 to -20, 0, 20. -/
theorem dB_conversion_props (m m2 : ℝ) (hm : 0 < m) (hmm : m < m2) :
    dBmag m = 20 * Real.logb 10 m ∧ dBmag m < dBmag m2 ∧
    dBmag (1 / 10) = -20 ∧ dBmag 1 = 0 ∧ dBmag 10 = 20 := by
  refine ⟨rfl, ?_, ?_, ?_, ?_⟩
  · have hlt := Real.logb_lt_logb (b := 10) (by norm_num) hm hmm
    rw [dBmag, dBmag]
    linarith
  · rw [dBmag, one_div, Real.logb_inv, logb_ten_ten]
    norm_num
  · rw [dBmag, Real.logb_one]
    norm_num
  · rw [dBmag, logb_ten_ten]
    norm_num

/-- Witness for C7 at magnitudes 1 < 10. -/
theorem dB_conversion_props_witness :
    ((0 : ℝ) < 1 ∧ (1 : ℝ) < 10) ∧
    (dBmag 1 = 20 * Real.logb 10 1 ∧ dBmag 1 < dBmag 10 ∧
     dBmag (1 / 10) = -20 ∧ dBmag 1 = 0 ∧ dBmag 10 = 20) :=
  ⟨⟨by norm_num, by norm_num⟩, dB_conversion_props 1 10 (by norm_num) (by norm_num)⟩

/-- C8: with the Hz flag set, each displayed frequency is the rad/s value
divided by 2*pi (so `omega = 2*pi` displays as 1 Hz), and the displayed
frequency data of the magnitude plot is exactly the `hzScale` image of the
sweep `freqresp` returned. -/
theorem hz_conversion_props :
    (∀ w : ℝ, hzScale w = w / (2 * Real.pi)) ∧
    hzScale (2 * Real.pi) = 1 ∧
    (∀ (sys : LinSys) (omega : List ℝ) (dBv : Bool),
      ((bodeRun [sys] omega dBv true).2.map Prod.fst) =
        [((sys.freqresp omega).2.2).map hzScale]) := by
  refine ⟨fun w => rfl, ?_, fun sys omega dBv => ?_⟩
  · rw [hzScale]
    exact div_self (by positivity)
  · simp [bodeRun]

/-- C9 falsified: with `Hz=True` and two systems whose `freqresp` echoes
the sweep, `bode` passes `[2*pi]` to the first system but the Hz-rescaled
`[1]` to the second, because line 117 overwrites the loop variable `omega`
that the next iteration feeds to `freqresp`. -/
theorem bode_hz_rescale_mutates_sweep :
    (bode [sysEcho, sysEcho] (some [2 * Real.pi]) false true).1.1 =
      [[2 * Real.pi], [1]] ∧ [(1 : ℝ)] ≠ [2 * Real.pi] := by
  have hne : (2 * Real.pi) ≠ 0 := by positivity
  constructor
  · simp [bode, bodeRun, sysEcho, echoResp, hzScale, div_self hne]
  · intro h
    have h1 : (1 : ℝ) = 2 * Real.pi := by
      simpa using h
    nlinarith [Real.pi_gt_three]

/-- C10: `bode` always returns the constant pair of subplot codes
`(211, 212)`, regardless of systems, sweep or flags. -/
theorem bode_returns_subplot_codes (syslist : List LinSys)
    (omegaIn : Option (List ℝ)) (dBv Hzv : Bool) :
    (bode syslist omegaIn dBv Hzv).2 = (211, 212) := rfl
